import Mathlib

/-!
Shallow embedding of the DPLL SAT solver from
`src/Algorithmic/Constraint Solver/src/lib.rs`.

The Rust code is translated construct by construct:
* `Literal` (a variable id plus a negation flag) becomes a structure;
* `Clause = Vec<Literal>` becomes `List Literal`;
* the `HashMap<usize, bool>` assignment becomes an association list with
  HashMap-style `insert` (overwrite the existing key or append) and `get`;
* `SatSolver::simplify` (retain clauses without `lit`, then remove the
  *first* occurrence of `!lit` from each remaining clause, failing when a
  clause becomes empty) returns `Option (List Clause)`, `none` meaning the
  Rust `false` (conflict);
* `SatSolver::dpll_solve` is written as one well-founded recursion: the
  in-place unit-propagation `loop` of the Rust code is modelled by a
  recursive call on the simplified formula (re-entering the function at the
  top re-runs the unit search exactly as the next loop iteration does).
-/

namespace ConstraintSolver

/-- `Literal { id, negated }` from the Rust source. -/
structure Literal where
  id : Nat
  negated : Bool
deriving DecidableEq

/-- `Literal::not`: flip the `negated` flag, keep the id. -/
def Literal.not (l : Literal) : Literal :=
  ⟨l.id, !l.negated⟩

/-- `type Clause = Vec<Literal>`. -/
abbrev Clause := List Literal

/-- The `HashMap<usize, bool>` assignment, as an association list. -/
abbrev Assignment := List (Nat × Bool)

/-- `HashMap::get`: the value stored at key `k`, if any. -/
def lookupA : Assignment → Nat → Option Bool
  | [], _ => none
  | (k', v) :: rest, k => if k' = k then some v else lookupA rest k

/-- `HashMap::insert`: overwrite the value at an existing key, else append. -/
def insertA : Assignment → Nat → Bool → Assignment
  | [], k, v => [(k, v)]
  | (k', v') :: rest, k, v =>
    if k' = k then (k, v) :: rest else (k', v') :: insertA rest k v

/-- `enum Solution`. -/
inductive Solution where
  | Satisfiable (assignment : Assignment)
  | Unsatisfiable
deriving DecidableEq

/-- `struct SatSolver`. -/
structure SatSolver where
  clauses : List Clause
  num_vars : Nat

/-- `SatSolver::new`. -/
def SatSolver.new (numVars : Nat) : SatSolver :=
  ⟨[], numVars⟩

/-- `SatSolver::add_clause`: push one clause at the end. -/
def SatSolver.add_clause (s : SatSolver) (c : Clause) : SatSolver :=
  ⟨s.clauses ++ [c], s.num_vars⟩

/-- `Vec::remove(position(...))`: drop the first occurrence of `t`, if any. -/
def removeFirst : Clause → Literal → Clause
  | [], _ => []
  | l :: rest, t => if l = t then rest else l :: removeFirst rest t

/-- Second pass of `SatSolver::simplify`: walk the retained clauses, remove
the first occurrence of `nl` from each clause containing it, and fail
(`none`) when such a removal empties a clause. -/
def strikeClauses : List Clause → Literal → Option (List Clause)
  | [], _ => some []
  | c :: rest, nl =>
    if nl ∈ c then
      if removeFirst c nl = [] then none
      else (strikeClauses rest nl).map (fun cs => removeFirst c nl :: cs)
    else (strikeClauses rest nl).map (fun cs => c :: cs)

/-- `SatSolver::simplify`: drop every clause containing `lit`, then strike
the first occurrence of `lit.not` from each remaining clause; `none` is the
Rust `false` return (a clause became empty, conflict). -/
def simplify (clauses : List Clause) (lit : Literal) : Option (List Clause) :=
  strikeClauses (clauses.filter (fun c => decide (lit ∉ c))) lit.not

/-- The unit-clause scan of `dpll_solve`: first clause of length exactly 1,
in clause order. -/
def findUnit : List Clause → Option Literal
  | [] => none
  | [l] :: _ => some l
  | _ :: rest => findUnit rest

/-- The branching access `clauses[0][0]` of `dpll_solve`, made total:
the first literal of the first clause when both exist. -/
def branchLit : List Clause → Option Literal
  | (l :: _) :: _ => some l
  | _ => none

/-- The conflict test of the propagation loop: a stored value exists and
differs from the forced one. -/
def conflictsWith (stored : Option Bool) (val : Bool) : Bool :=
  match stored with
  | some existing => existing != val
  | none => false

/-- Total number of literal occurrences plus number of clauses: the
termination measure of the search. -/
def fsize : List Clause → Nat
  | [] => 0
  | c :: rest => c.length + 1 + fsize rest

theorem removeFirst_length_lt {c : Clause} {t : Literal} (h : t ∈ c) :
    (removeFirst c t).length < c.length := by
  induction c with
  | nil => cases h
  | cons l rest ih =>
    by_cases hl : l = t
    · simp [removeFirst, hl]
    · rcases List.mem_cons.mp h with h1 | h2
      · exact absurd h1.symm hl
      · simpa [removeFirst, hl] using ih h2

theorem removeFirst_length_le (c : Clause) (t : Literal) :
    (removeFirst c t).length ≤ c.length := by
  induction c with
  | nil => exact Nat.le_refl _
  | cons l rest ih =>
    by_cases hl : l = t
    · simp [removeFirst, hl]
    · simpa [removeFirst, hl] using Nat.succ_le_succ ih

theorem strikeClauses_fsize_le {cs : List Clause} {nl : Literal}
    {cs' : List Clause} (h : strikeClauses cs nl = some cs') :
    fsize cs' ≤ fsize cs := by
  induction cs generalizing cs' with
  | nil =>
    simp only [strikeClauses, Option.some.injEq] at h
    simp [← h, fsize]
  | cons c rest ih =>
    by_cases hc : nl ∈ c
    · by_cases he : removeFirst c nl = []
      · simp [strikeClauses, hc, he] at h
      · simp only [strikeClauses, if_pos hc, if_neg he, Option.map_eq_some'] at h
        obtain ⟨tl, htl, rfl⟩ := h
        have h1 := removeFirst_length_le c nl
        have h2 := ih htl
        simp only [fsize]
        omega
    · simp only [strikeClauses, if_neg hc, Option.map_eq_some'] at h
      obtain ⟨tl, htl, rfl⟩ := h
      have h2 := ih htl
      simp only [fsize]
      omega

theorem strikeClauses_fsize_lt {cs : List Clause} {nl : Literal}
    {cs' : List Clause} (h : strikeClauses cs nl = some cs')
    (hmem : ∃ c ∈ cs, nl ∈ c) : fsize cs' < fsize cs := by
  induction cs generalizing cs' with
  | nil => obtain ⟨c, hc, _⟩ := hmem; cases hc
  | cons c rest ih =>
    by_cases hc : nl ∈ c
    · by_cases he : removeFirst c nl = []
      · simp [strikeClauses, hc, he] at h
      · simp only [strikeClauses, if_pos hc, if_neg he, Option.map_eq_some'] at h
        obtain ⟨tl, htl, rfl⟩ := h
        have h1 := removeFirst_length_lt hc
        have h2 := strikeClauses_fsize_le htl
        simp only [fsize]
        omega
    · simp only [strikeClauses, if_neg hc, Option.map_eq_some'] at h
      obtain ⟨tl, htl, rfl⟩ := h
      rcases hmem with ⟨c0, hc0, hnl0⟩
      rcases List.mem_cons.mp hc0 with rfl | hc0r
      · exact absurd hnl0 hc
      · have h2 := ih htl ⟨c0, hc0r, hnl0⟩
        simp only [fsize]
        omega

theorem filter_fsize_le (cs : List Clause) (p : Clause → Bool) :
    fsize (cs.filter p) ≤ fsize cs := by
  induction cs with
  | nil => exact Nat.le_refl _
  | cons c rest ih =>
    by_cases hp : p c
    · simp only [List.filter_cons, hp, if_pos, fsize]
      omega
    · simp only [List.filter_cons, hp, Bool.false_eq_true, if_false, fsize]
      omega

theorem filter_fsize_lt {cs : List Clause} {p : Clause → Bool} {c : Clause}
    (hc : c ∈ cs) (hp : p c = false) : fsize (cs.filter p) < fsize cs := by
  induction cs with
  | nil => cases hc
  | cons c0 rest ih =>
    rcases List.mem_cons.mp hc with rfl | hcr
    · simp only [List.filter_cons, hp, Bool.false_eq_true, if_false, fsize]
      have := filter_fsize_le rest p
      omega
    · by_cases hp0 : p c0
      · simp only [List.filter_cons, hp0, if_pos, fsize]
        have := ih hcr
        omega
      · simp only [List.filter_cons, hp0, Bool.false_eq_true, if_false, fsize]
        have := filter_fsize_le rest p
        omega

/-- `simplify` never grows the formula. -/
theorem simplify_fsize_le {cs : List Clause} {lit : Literal}
    {cs' : List Clause} (h : simplify cs lit = some cs') :
    fsize cs' ≤ fsize cs :=
  Nat.le_trans (strikeClauses_fsize_le h) (filter_fsize_le cs _)

/-- `simplify` strictly shrinks the formula whenever some clause mentions
the literal or its negation. -/
theorem simplify_fsize_lt {cs : List Clause} {lit : Literal}
    {cs' : List Clause} (h : simplify cs lit = some cs')
    (hmem : ∃ c ∈ cs, lit ∈ c ∨ Literal.not lit ∈ c) :
    fsize cs' < fsize cs := by
  obtain ⟨c, hc, hcase⟩ := hmem
  by_cases hl : lit ∈ c
  · exact Nat.lt_of_le_of_lt (strikeClauses_fsize_le h)
      (filter_fsize_lt hc (by simp [hl]))
  · rcases hcase with hl' | hnl
    · exact absurd hl' hl
    · exact Nat.lt_of_lt_of_le
        (strikeClauses_fsize_lt h
          ⟨c, List.mem_filter.mpr ⟨hc, by simp [hl]⟩, hnl⟩)
        (filter_fsize_le cs _)

theorem findUnit_mem {cs : List Clause} {l : Literal}
    (h : findUnit cs = some l) : [l] ∈ cs := by
  induction cs with
  | nil => simp [findUnit] at h
  | cons c rest ih =>
    match c with
    | [] => exact List.mem_cons_of_mem _ (ih h)
    | [x] =>
      simp only [findUnit, Option.some.injEq] at h
      exact h ▸ List.mem_cons_self _ _
    | x :: y :: t => exact List.mem_cons_of_mem _ (ih h)

theorem branchLit_mem {cs : List Clause} {l : Literal}
    (h : branchLit cs = some l) : ∃ c ∈ cs, l ∈ c := by
  match cs with
  | [] => simp [branchLit] at h
  | [] :: rest => simp [branchLit] at h
  | (x :: t) :: rest =>
    simp only [branchLit, Option.some.injEq] at h
    exact ⟨x :: t, List.mem_cons_self _ _, h ▸ List.mem_cons_self _ _⟩

/-- Each branch literal `⟨var, b⟩` occurs, as itself or negated, in the
first clause, so the branch-side `simplify` strictly shrinks the formula. -/
theorem simplify_branch_lt {cs : List Clause} {l : Literal} (b : Bool)
    {cs' : List Clause} (hb : branchLit cs = some l)
    (h : simplify cs ⟨l.id, b⟩ = some cs') : fsize cs' < fsize cs := by
  obtain ⟨c, hc, hl⟩ := branchLit_mem hb
  apply simplify_fsize_lt h
  refine ⟨c, hc, ?_⟩
  by_cases hneg : l.negated = b
  · left
    have : l = ⟨l.id, b⟩ := by cases l; simp_all
    exact this ▸ hl
  · right
    have : l = Literal.not ⟨l.id, b⟩ := by
      cases l with
      | mk i n =>
        simp only [Literal.not, Literal.mk.injEq]
        simp only at hneg
        cases n <;> cases b <;> simp_all
    exact this ▸ hl

/-- `SatSolver::dpll_solve`.  The Rust propagation `loop` becomes the
recursive call in the `findUnit = some` arm (re-entering the function
repeats the unit scan exactly as the next loop iteration does); the
branching step tries `var := clauses[0][0].id` at `true`, then — when that
branch conflicts or returns `Unsatisfiable` — at `false`.  The `none` arm
of `branchLit` is unreachable (see `branch_access_safe`); it returns
`Unsatisfiable` as an arbitrary fallback. -/
def dpllSolve (clauses : List Clause) (assignment : Assignment) : Solution :=
  match hu : findUnit clauses with
  | some lit =>
    if conflictsWith (lookupA assignment lit.id) (!lit.negated) then .Unsatisfiable
    else
      match hs : simplify clauses lit with
      | none => .Unsatisfiable
      | some cs' =>
        if cs' = [] then .Satisfiable (insertA assignment lit.id (!lit.negated))
        else dpllSolve cs' (insertA assignment lit.id (!lit.negated))
  | none =>
    if clauses.any (fun c => c.isEmpty) then .Unsatisfiable
    else if clauses = [] then .Satisfiable assignment
    else
      match hb : branchLit clauses with
      | none => .Unsatisfiable
      | some l =>
        match hl : simplify clauses ⟨l.id, false⟩ with
        | some lcs =>
          match dpllSolve lcs (insertA assignment l.id true) with
          | .Satisfiable res => .Satisfiable res
          | .Unsatisfiable =>
            match hr : simplify clauses ⟨l.id, true⟩ with
            | some rcs => dpllSolve rcs (insertA assignment l.id false)
            | none => .Unsatisfiable
        | none =>
          match hr : simplify clauses ⟨l.id, true⟩ with
          | some rcs => dpllSolve rcs (insertA assignment l.id false)
          | none => .Unsatisfiable
termination_by fsize clauses
decreasing_by
  · exact simplify_fsize_lt hs ⟨[lit], findUnit_mem hu, Or.inl (List.mem_singleton.mpr rfl)⟩
  · exact simplify_branch_lt false hb hl
  · exact simplify_branch_lt true hb hr
  · exact simplify_branch_lt true hb hr

/-- `SatSolver::solve`: run the search on a copy of the stored clauses with
an empty assignment. -/
def SatSolver.solve (s : SatSolver) : Solution :=
  dpllSolve s.clauses []

theorem dpll_unit_conflict {cs : List Clause} {a : Assignment} {lit : Literal}
    (hu : findUnit cs = some lit)
    (hc : conflictsWith (lookupA a lit.id) (!lit.negated) = true) :
    dpllSolve cs a = .Unsatisfiable := by
  rw [dpllSolve.eq_def]
  split
  · next lit' hu' =>
    rw [hu] at hu'
    injection hu' with h
    subst h
    simp [hc]
  · next hu' => rw [hu] at hu'; cases hu'

theorem dpll_unit_simplify_conflict {cs : List Clause} {a : Assignment} {lit : Literal}
    (hu : findUnit cs = some lit)
    (hc : conflictsWith (lookupA a lit.id) (!lit.negated) = false)
    (hs : simplify cs lit = none) :
    dpllSolve cs a = .Unsatisfiable := by
  rw [dpllSolve.eq_def]
  split
  · next lit' hu' =>
    rw [hu] at hu'
    injection hu' with h
    subst h
    rw [if_neg (by simp [hc])]
    split
    · rfl
    · next cs' hs' => rw [hs] at hs'; cases hs'
  · next hu' => rw [hu] at hu'; cases hu'

theorem dpll_unit_empty {cs : List Clause} {a : Assignment} {lit : Literal}
    (hu : findUnit cs = some lit)
    (hc : conflictsWith (lookupA a lit.id) (!lit.negated) = false)
    (hs : simplify cs lit = some []) :
    dpllSolve cs a = .Satisfiable (insertA a lit.id (!lit.negated)) := by
  rw [dpllSolve.eq_def]
  split
  · next lit' hu' =>
    rw [hu] at hu'
    injection hu' with h
    subst h
    rw [if_neg (by simp [hc])]
    split
    · next hs' => rw [hs] at hs'; cases hs'
    · next cs' hs' =>
      rw [hs] at hs'
      injection hs' with h
      subst h
      simp
  · next hu' => rw [hu] at hu'; cases hu'

theorem dpll_unit_step {cs : List Clause} {a : Assignment} {lit : Literal} {cs' : List Clause}
    (hu : findUnit cs = some lit)
    (hc : conflictsWith (lookupA a lit.id) (!lit.negated) = false)
    (hs : simplify cs lit = some cs') (hne : cs' ≠ []) :
    dpllSolve cs a = dpllSolve cs' (insertA a lit.id (!lit.negated)) := by
  rw [dpllSolve.eq_def]
  split
  · next lit' hu' =>
    rw [hu] at hu'
    injection hu' with h
    subst h
    rw [if_neg (by simp [hc])]
    split
    · next hs' => rw [hs] at hs'; cases hs'
    · next cs0 hs' =>
      rw [hs] at hs'
      injection hs' with h
      subst h
      rw [if_neg hne]
  · next hu' => rw [hu] at hu'; cases hu'

theorem dpll_empty_clause {cs : List Clause} {a : Assignment}
    (hu : findUnit cs = none)
    (he : cs.any (fun c => c.isEmpty) = true) :
    dpllSolve cs a = .Unsatisfiable := by
  rw [dpllSolve.eq_def]
  split
  · next lit' hu' => rw [hu] at hu'; cases hu'
  · rw [if_pos he]

theorem dpll_empty_formula {a : Assignment}
    (hu : findUnit ([] : List Clause) = none) :
    dpllSolve [] a = .Satisfiable a := by
  rw [dpllSolve.eq_def]
  simp [findUnit]

/-- Shared preamble for the branching-arm lemmas: reduce `dpllSolve` to the
branching expression. -/
theorem dpll_branch_left_sat {cs : List Clause} {a : Assignment} {l : Literal}
    {lcs : List Clause} {res : Assignment}
    (hu : findUnit cs = none)
    (he : cs.any (fun c => c.isEmpty) = false)
    (hne : cs ≠ [])
    (hb : branchLit cs = some l)
    (hl : simplify cs ⟨l.id, false⟩ = some lcs)
    (hres : dpllSolve lcs (insertA a l.id true) = .Satisfiable res) :
    dpllSolve cs a = .Satisfiable res := by
  rw [dpllSolve.eq_def]
  split
  · next lit' hu' => rw [hu] at hu'; cases hu'
  · rw [if_neg (by simp [he]), if_neg hne]
    split
    · next hb' => rw [hb] at hb'; cases hb'
    · next l' hb' =>
      rw [hb] at hb'; injection hb' with h; subst h
      split
      · next lcs' hl' =>
        rw [hl] at hl'; injection hl' with h; subst h
        rw [hres]
      · next hl' => rw [hl] at hl'; cases hl'

theorem dpll_branch_right_after_unsat {cs : List Clause} {a : Assignment} {l : Literal}
    {lcs rcs : List Clause}
    (hu : findUnit cs = none)
    (he : cs.any (fun c => c.isEmpty) = false)
    (hne : cs ≠ [])
    (hb : branchLit cs = some l)
    (hl : simplify cs ⟨l.id, false⟩ = some lcs)
    (hres : dpllSolve lcs (insertA a l.id true) = .Unsatisfiable)
    (hr : simplify cs ⟨l.id, true⟩ = some rcs) :
    dpllSolve cs a = dpllSolve rcs (insertA a l.id false) := by
  rw [dpllSolve.eq_def]
  split
  · next lit' hu' => rw [hu] at hu'; cases hu'
  · rw [if_neg (by simp [he]), if_neg hne]
    split
    · next hb' => rw [hb] at hb'; cases hb'
    · next l' hb' =>
      rw [hb] at hb'; injection hb' with h; subst h
      split
      · next lcs' hl' =>
        rw [hl] at hl'; injection hl' with h; subst h
        rw [hres]
        split
        · next rcs' hr' => cases hr'
        · next hr' =>
          split
          · next rcs' hr2 =>
            rw [hr] at hr2; injection hr2 with h; subst h; rfl
          · next hr2 => rw [hr] at hr2; cases hr2
      · next hl' => rw [hl] at hl'; cases hl'

theorem dpll_branch_right_after_conflict {cs : List Clause} {a : Assignment} {l : Literal}
    {rcs : List Clause}
    (hu : findUnit cs = none)
    (he : cs.any (fun c => c.isEmpty) = false)
    (hne : cs ≠ [])
    (hb : branchLit cs = some l)
    (hl : simplify cs ⟨l.id, false⟩ = none)
    (hr : simplify cs ⟨l.id, true⟩ = some rcs) :
    dpllSolve cs a = dpllSolve rcs (insertA a l.id false) := by
  rw [dpllSolve.eq_def]
  split
  · next lit' hu' => rw [hu] at hu'; cases hu'
  · rw [if_neg (by simp [he]), if_neg hne]
    split
    · next hb' => rw [hb] at hb'; cases hb'
    · next l' hb' =>
      rw [hb] at hb'; injection hb' with h; subst h
      split
      · next lcs' hl' => rw [hl] at hl'; cases hl'
      · next hl' =>
        split
        · next rcs' hr2 =>
          rw [hr] at hr2; injection hr2 with h; subst h; rfl
        · next hr2 => rw [hr] at hr2; cases hr2

theorem dpll_branch_unsat_conflict {cs : List Clause} {a : Assignment} {l : Literal}
    (hu : findUnit cs = none)
    (he : cs.any (fun c => c.isEmpty) = false)
    (hne : cs ≠ [])
    (hb : branchLit cs = some l)
    (hl : simplify cs ⟨l.id, false⟩ = none)
    (hr : simplify cs ⟨l.id, true⟩ = none) :
    dpllSolve cs a = .Unsatisfiable := by
  rw [dpllSolve.eq_def]
  split
  · next lit' hu' => rw [hu] at hu'; cases hu'
  · rw [if_neg (by simp [he]), if_neg hne]
    split
    · next hb' => rfl
    · next l' hb' =>
      rw [hb] at hb'; injection hb' with h; subst h
      split
      · next lcs' hl' => rw [hl] at hl'; cases hl'
      · next hl' =>
        split
        · next rcs' hr2 => rw [hr] at hr2; cases hr2
        · next hr2 => rfl

/-- A clause is satisfied by a (possibly partial) assignment when some
literal's variable is assigned the value matching the literal's polarity. -/
def clauseSat (a : Assignment) (c : Clause) : Prop :=
  ∃ l ∈ c, lookupA a l.id = some (!l.negated)

instance (a : Assignment) (c : Clause) : Decidable (clauseSat a c) := by
  unfold clauseSat
  infer_instance

/-- A total assignment `σ` satisfies every clause of the list. -/
def SatAll (σ : Nat → Bool) (cs : List Clause) : Prop :=
  ∀ c ∈ cs, ∃ l ∈ c, σ l.id = !l.negated

instance (σ : Nat → Bool) (cs : List Clause) : Decidable (SatAll σ cs) := by
  unfold SatAll
  infer_instance

/-- A total assignment agrees with everything a partial assignment stores. -/
def Extends (σ : Nat → Bool) (a : Assignment) : Prop :=
  ∀ k v, lookupA a k = some v → σ k = v

theorem removeFirst_of_not_mem {c : Clause} {t : Literal} (h : t ∉ c) :
    removeFirst c t = c := by
  induction c with
  | nil => rfl
  | cons l rest ih =>
    have hl : l ≠ t := fun he => h (he ▸ List.mem_cons_self _ _)
    have hr : t ∉ rest := fun hm => h (List.mem_cons_of_mem _ hm)
    simp [removeFirst, hl, ih hr]

theorem removeFirst_eq_nil {c : Clause} {t : Literal} (hmem : t ∈ c)
    (h : removeFirst c t = []) : c = [t] := by
  match c with
  | [] => cases hmem
  | l :: rest =>
    by_cases hl : l = t
    · subst hl
      have h' : rest = [] := by simpa [removeFirst] using h
      rw [h']
    · simp only [removeFirst, if_neg hl] at h
      cases h

theorem mem_removeFirst_of_ne {c : Clause} {t nl : Literal} (h : t ∈ c)
    (hne : t ≠ nl) : t ∈ removeFirst c nl := by
  induction c with
  | nil => cases h
  | cons l rest ih =>
    by_cases hl : l = nl
    · subst hl
      rcases List.mem_cons.mp h with rfl | hr
      · exact absurd rfl hne
      · simpa [removeFirst] using hr
    · rcases List.mem_cons.mp h with rfl | hr
      · simp [removeFirst, hl]
      · simp [removeFirst, hl, ih hr]

/-- The strike pass fails exactly when some clause is the singleton of the
struck literal. -/
theorem strikeClauses_none {cs : List Clause} {nl : Literal}
    (h : strikeClauses cs nl = none) : [nl] ∈ cs := by
  induction cs with
  | nil => simp [strikeClauses] at h
  | cons c rest ih =>
    by_cases hc : nl ∈ c
    · by_cases he : removeFirst c nl = []
      · exact (removeFirst_eq_nil hc he) ▸ List.mem_cons_self _ _
      · simp only [strikeClauses, if_pos hc, if_neg he, Option.map_eq_none'] at h
        exact List.mem_cons_of_mem _ (ih h)
    · simp only [strikeClauses, if_neg hc, Option.map_eq_none'] at h
      exact List.mem_cons_of_mem _ (ih h)

/-- `simplify` conflicts only when some clause not containing `lit` is
exactly the singleton `[lit.not]`. -/
theorem simplify_none_char {cs : List Clause} {lit : Literal}
    (h : simplify cs lit = none) : [Literal.not lit] ∈ cs ∧ lit ∉ [Literal.not lit] := by
  have hmem := strikeClauses_none h
  have := List.mem_filter.mp hmem
  exact ⟨this.1, by simpa using of_decide_eq_true this.2⟩

/-- Every clause produced by the strike pass is some input clause with the
first occurrence of the struck literal removed. -/
theorem strikeClauses_some_mem {cs : List Clause} {nl : Literal}
    {cs' : List Clause} (h : strikeClauses cs nl = some cs') :
    ∀ c' ∈ cs', ∃ c ∈ cs, c' = removeFirst c nl := by
  induction cs generalizing cs' with
  | nil =>
    simp only [strikeClauses, Option.some.injEq] at h
    subst h
    intro c' hc'
    cases hc'
  | cons c rest ih =>
    by_cases hc : nl ∈ c
    · by_cases he : removeFirst c nl = []
      · simp [strikeClauses, hc, he] at h
      · simp only [strikeClauses, if_pos hc, if_neg he, Option.map_eq_some'] at h
        obtain ⟨tl, htl, rfl⟩ := h
        intro c' hc'
        rcases List.mem_cons.mp hc' with rfl | hr
        · exact ⟨c, List.mem_cons_self _ _, rfl⟩
        · obtain ⟨c0, hc0, rfl⟩ := ih htl c' hr
          exact ⟨c0, List.mem_cons_of_mem _ hc0, rfl⟩
    · simp only [strikeClauses, if_neg hc, Option.map_eq_some'] at h
      obtain ⟨tl, htl, rfl⟩ := h
      intro c' hc'
      rcases List.mem_cons.mp hc' with rfl | hr
      · exact ⟨c', List.mem_cons_self _ _, (removeFirst_of_not_mem hc).symm⟩
      · obtain ⟨c0, hc0, rfl⟩ := ih htl c' hr
        exact ⟨c0, List.mem_cons_of_mem _ hc0, rfl⟩

/-- Every clause of a successful `simplify` is an input clause that does not
contain `lit`, with the first occurrence of `lit.not` removed. -/
theorem simplify_some_mem {cs : List Clause} {lit : Literal}
    {cs' : List Clause} (h : simplify cs lit = some cs') :
    ∀ c' ∈ cs', ∃ c ∈ cs, lit ∉ c ∧ c' = removeFirst c (Literal.not lit) := by
  intro c' hc'
  obtain ⟨c, hcf, rfl⟩ := strikeClauses_some_mem h c' hc'
  have := List.mem_filter.mp hcf
  exact ⟨c, this.1, by simpa using of_decide_eq_true this.2, rfl⟩

theorem lookupA_insertA (a : Assignment) (k : Nat) (v : Bool) (k' : Nat) :
    lookupA (insertA a k v) k' = if k = k' then some v else lookupA a k' := by
  induction a with
  | nil => simp [insertA, lookupA]
  | cons p rest ih =>
    obtain ⟨k0, v0⟩ := p
    by_cases hk : k0 = k
    · subst hk
      by_cases hk' : k0 = k'
      · subst hk'
        simp [insertA, lookupA]
      · simp [insertA, lookupA, hk']
    · by_cases hk' : k0 = k'
      · subst hk'
        have : ¬ k = k0 := fun he => hk he.symm
        simp [insertA, lookupA, hk, this]
      · simp [insertA, lookupA, hk, hk', ih]

theorem extends_insert {σ : Nat → Bool} {a : Assignment} {k : Nat} {v : Bool}
    (hext : Extends σ a) (hv : σ k = v) : Extends σ (insertA a k v) := by
  intro k' v' h
  rw [lookupA_insertA] at h
  by_cases hk : k = k'
  · subst hk
    rw [if_pos rfl] at h
    injection h with h
    rw [← h, hv]
  · rw [if_neg hk] at h
    exact hext k' v' h

/-- A satisfying total assignment still satisfies every clause produced by a
successful `simplify` with a literal it makes true. -/
theorem satAll_simplify {σ : Nat → Bool} {cs : List Clause} {lit : Literal}
    {cs' : List Clause} (hsat : SatAll σ cs) (hlit : σ lit.id = !lit.negated)
    (h : simplify cs lit = some cs') : SatAll σ cs' := by
  intro c' hc'
  obtain ⟨c, hc, _, rfl⟩ := simplify_some_mem h c' hc'
  obtain ⟨t, htc, ht⟩ := hsat c hc
  refine ⟨t, mem_removeFirst_of_ne htc ?_, ht⟩
  intro he
  subst he
  simp only [Literal.not] at ht hlit
  rw [hlit] at ht
  cases lit.negated <;> simp at ht

/-- A total assignment that makes `lit` true rules out the conflict return
of `simplify`. -/
theorem simplify_ne_none {σ : Nat → Bool} {cs : List Clause} {lit : Literal}
    (hsat : SatAll σ cs) (hlit : σ lit.id = !lit.negated) :
    simplify cs lit ≠ none := by
  intro h
  obtain ⟨hmem, -⟩ := simplify_none_char h
  obtain ⟨t, htc, ht⟩ := hsat _ hmem
  rcases List.mem_singleton.mp htc with rfl
  simp only [Literal.not] at ht
  rw [hlit] at ht
  cases lit.negated <;> simp at ht

/-- A satisfying total assignment forces the value of every unit clause. -/
theorem satAll_unit {σ : Nat → Bool} {cs : List Clause} {lit : Literal}
    (hsat : SatAll σ cs) (hu : findUnit cs = some lit) :
    σ lit.id = !lit.negated := by
  obtain ⟨t, htc, ht⟩ := hsat _ (findUnit_mem hu)
  rcases List.mem_singleton.mp htc with rfl
  exact ht

/-- The empty clause survives both passes of `simplify`. -/
theorem strikeClauses_keeps_nil {cs : List Clause} {nl : Literal}
    {cs' : List Clause} (h : strikeClauses cs nl = some cs')
    (hnil : [] ∈ cs) : [] ∈ cs' := by
  induction cs generalizing cs' with
  | nil => cases hnil
  | cons c rest ih =>
    by_cases hc : nl ∈ c
    · by_cases he : removeFirst c nl = []
      · simp [strikeClauses, hc, he] at h
      · simp only [strikeClauses, if_pos hc, if_neg he, Option.map_eq_some'] at h
        obtain ⟨tl, htl, rfl⟩ := h
        rcases List.mem_cons.mp hnil with rfl | hr
        · cases hc
        · exact List.mem_cons_of_mem _ (ih htl hr)
    · simp only [strikeClauses, if_neg hc, Option.map_eq_some'] at h
      obtain ⟨tl, htl, rfl⟩ := h
      rcases List.mem_cons.mp hnil with rfl | hr
      · exact List.mem_cons_self _ _
      · exact List.mem_cons_of_mem _ (ih htl hr)

theorem simplify_keeps_nil {cs : List Clause} {lit : Literal}
    {cs' : List Clause} (h : simplify cs lit = some cs') (hnil : [] ∈ cs) :
    [] ∈ cs' :=
  strikeClauses_keeps_nil h
    (List.mem_filter.mpr ⟨hnil, by simp⟩)

/-- Striking a literal absent from every clause changes nothing. -/
theorem strikeClauses_id {cs : List Clause} {nl : Literal}
    (h : ∀ c ∈ cs, nl ∉ c) : strikeClauses cs nl = some cs := by
  induction cs with
  | nil => rfl
  | cons c rest ih =>
    have hc : nl ∉ c := h c (List.mem_cons_self _ _)
    have hr := ih (fun c0 hc0 => h c0 (List.mem_cons_of_mem _ hc0))
    simp [strikeClauses, hc, hr]

/-- When neither `lit` nor `lit.not` occurs anywhere, `simplify` is the
identity and reports no conflict. -/
theorem simplify_id {cs : List Clause} {lit : Literal}
    (h : ∀ c ∈ cs, lit ∉ c ∧ Literal.not lit ∉ c) :
    simplify cs lit = some cs := by
  unfold simplify
  have hfilter : cs.filter (fun c => decide (lit ∉ c)) = cs := by
    rw [List.filter_eq_self]
    intro c hc
    exact decide_eq_true (h c hc).1
  rw [hfilter]
  exact strikeClauses_id (fun c hc => (h c hc).2)

/-- With a nonempty formula free of empty clauses, the branching access
`clauses[0][0]` is in bounds. -/
theorem branchLit_isSome_of_checks {cs : List Clause}
    (hne : cs ≠ []) (hemp : cs.any (fun c => c.isEmpty) = false) :
    (branchLit cs).isSome := by
  match cs with
  | [] => exact absurd rfl hne
  | [] :: rest => simp [List.any_cons] at hemp
  | (l :: t) :: rest => simp [branchLit]

/-- Boolean absurdity helper: a total assignment cannot make a literal both
true and false. -/
theorem bool_both {b v : Bool} (h1 : b = !v) (h2 : b = v) : False := by
  rw [h2] at h1
  cases v <;> simp at h1

/-- Completeness of the search: from any state whose formula is satisfied by
a total assignment consistent with the partial assignment, `dpllSolve`
returns `Satisfiable`. -/
theorem dpll_complete {σ : Nat → Bool} :
    ∀ cs a, Extends σ a → SatAll σ cs → ∃ r, dpllSolve cs a = .Satisfiable r := by
  intro cs a
  induction cs, a using dpllSolve.induct with
  | case1 cs a lit hu hc =>
    intro hext hsat
    exfalso
    have hval := satAll_unit hsat hu
    unfold conflictsWith at hc
    cases hl : lookupA a lit.id with
    | none => rw [hl] at hc; simp at hc
    | some e =>
      rw [hl] at hc
      simp only [bne_iff_ne, ne_eq] at hc
      exact hc ((hext _ _ hl).symm.trans hval)
  | case2 cs a lit hu hnc hs =>
    intro hext hsat
    exact absurd hs (simplify_ne_none hsat (satAll_unit hsat hu))
  | case3 cs a lit hu hnc hs =>
    intro hext hsat
    exact ⟨_, dpll_unit_empty hu (by simpa using hnc) hs⟩
  | case4 cs a lit hu hnc cs' hs hne ih =>
    intro hext hsat
    have hval := satAll_unit hsat hu
    rw [dpll_unit_step hu (by simpa using hnc) hs hne]
    exact ih (extends_insert hext hval) (satAll_simplify hsat hval hs)
  | case5 cs a hu he =>
    intro hext hsat
    exfalso
    obtain ⟨c, hc, hce⟩ := List.any_eq_true.mp he
    rw [List.isEmpty_iff] at hce
    subst hce
    obtain ⟨l, hl, -⟩ := hsat _ hc
    cases hl
  | case6 a hu he =>
    intro hext hsat
    exact ⟨a, dpll_empty_formula rfl⟩
  | case7 cs a hu he hne hb =>
    intro hext hsat
    exfalso
    have := branchLit_isSome_of_checks hne (Bool.eq_false_iff.mpr he)
    rw [hb] at this
    cases this
  | case8 cs a hu he hne l hb lcs hl res hres ih =>
    intro hext hsat
    exact ⟨res, dpll_branch_left_sat hu (Bool.eq_false_iff.mpr he) hne hb hl hres⟩
  | case9 cs a hu he hne l hb lcs hl hres rcs hr ih1 ih2 =>
    intro hext hsat
    cases hσ : σ l.id with
    | true =>
      exfalso
      have hsat' : SatAll σ lcs := satAll_simplify hsat (by simpa using hσ) hl
      have hext' : Extends σ (insertA a l.id true) := extends_insert hext hσ
      obtain ⟨r, hrr⟩ := ih1 hext' hsat'
      rw [hres] at hrr
      cases hrr
    | false =>
      rw [dpll_branch_right_after_unsat hu (Bool.eq_false_iff.mpr he) hne hb hl hres hr]
      have hsat' : SatAll σ rcs := satAll_simplify hsat (by simpa using hσ) hr
      exact ih2 (extends_insert hext hσ) hsat'
  | case10 cs a hu he hne l hb lcs hl hres hr ih =>
    intro hext hsat
    exfalso
    cases hσ : σ l.id with
    | true =>
      have hsat' : SatAll σ lcs := satAll_simplify hsat (by simpa using hσ) hl
      obtain ⟨r, hrr⟩ := ih (extends_insert hext hσ) hsat'
      rw [hres] at hrr
      cases hrr
    | false =>
      exact simplify_ne_none hsat (by simpa using hσ) hr
  | case11 cs a hu he hne l hb hl rcs hr ih =>
    intro hext hsat
    cases hσ : σ l.id with
    | true =>
      exact absurd hl (simplify_ne_none hsat (by simpa using hσ))
    | false =>
      rw [dpll_branch_right_after_conflict hu (Bool.eq_false_iff.mpr he) hne hb hl hr]
      exact ih (extends_insert hext hσ) (satAll_simplify hsat (by simpa using hσ) hr)
  | case12 cs a hu he hne l hb hl hr =>
    intro hext hsat
    cases hσ : σ l.id with
    | true =>
      exact absurd hl (simplify_ne_none hsat (by simpa using hσ))
    | false =>
      exact absurd hr (simplify_ne_none hsat (by simpa using hσ))

/-- A directly-present empty clause survives every propagation step, so the
search can only end in `Unsatisfiable`. -/
theorem dpll_nil_unsat : ∀ cs a, [] ∈ cs → dpllSolve cs a = .Unsatisfiable := by
  intro cs a
  induction cs, a using dpllSolve.induct with
  | case1 cs a lit hu hc =>
    intro _
    exact dpll_unit_conflict hu hc
  | case2 cs a lit hu hnc hs =>
    intro _
    exact dpll_unit_simplify_conflict hu (Bool.eq_false_iff.mpr hnc) hs
  | case3 cs a lit hu hnc hs =>
    intro hnil
    exact absurd (simplify_keeps_nil hs hnil) (List.not_mem_nil _)
  | case4 cs a lit hu hnc cs' hs hne ih =>
    intro hnil
    rw [dpll_unit_step hu (Bool.eq_false_iff.mpr hnc) hs hne]
    exact ih (simplify_keeps_nil hs hnil)
  | case5 cs a hu he =>
    intro _
    exact dpll_empty_clause hu he
  | case6 a hu he =>
    intro hnil
    cases hnil
  | case7 cs a hu he hne hb =>
    intro hnil
    exact absurd (List.any_eq_true.mpr ⟨[], hnil, rfl⟩) he
  | case8 cs a hu he hne l hb lcs hl res hres ih =>
    intro hnil
    exact absurd (List.any_eq_true.mpr ⟨[], hnil, rfl⟩) he
  | case9 cs a hu he hne l hb lcs hl hres rcs hr ih1 ih2 =>
    intro hnil
    exact absurd (List.any_eq_true.mpr ⟨[], hnil, rfl⟩) he
  | case10 cs a hu he hne l hb lcs hl hres hr ih =>
    intro hnil
    exact absurd (List.any_eq_true.mpr ⟨[], hnil, rfl⟩) he
  | case11 cs a hu he hne l hb hl rcs hr ih =>
    intro hnil
    exact absurd (List.any_eq_true.mpr ⟨[], hnil, rfl⟩) he
  | case12 cs a hu he hne l hb hl hr =>
    intro hnil
    exact absurd (List.any_eq_true.mpr ⟨[], hnil, rfl⟩) he

/-- Reachability of intermediate `dpll_solve` states `(clauses, assignment)`
from an initial state, following exactly the recursive call sites of
`dpllSolve`: one unit-propagation step; entering the true branch; entering
the false branch after the true branch conflicted in `simplify` or returned
`Unsatisfiable`. -/
inductive Reach : List Clause → Assignment → List Clause → Assignment → Prop where
  | refl (cs : List Clause) (a : Assignment) : Reach cs a cs a
  | unitStep {cs0 : List Clause} {a0 : Assignment} {cs : List Clause}
      {a : Assignment} {lit : Literal} {cs' : List Clause} :
      Reach cs0 a0 cs a →
      findUnit cs = some lit →
      conflictsWith (lookupA a lit.id) (!lit.negated) = false →
      simplify cs lit = some cs' →
      cs' ≠ [] →
      Reach cs0 a0 cs' (insertA a lit.id (!lit.negated))
  | branchTrue {cs0 : List Clause} {a0 : Assignment} {cs : List Clause}
      {a : Assignment} {l : Literal} {lcs : List Clause} :
      Reach cs0 a0 cs a →
      findUnit cs = none →
      cs.any (fun c => c.isEmpty) = false →
      cs ≠ [] →
      branchLit cs = some l →
      simplify cs ⟨l.id, false⟩ = some lcs →
      Reach cs0 a0 lcs (insertA a l.id true)
  | branchFalse {cs0 : List Clause} {a0 : Assignment} {cs : List Clause}
      {a : Assignment} {l : Literal} {rcs : List Clause} :
      Reach cs0 a0 cs a →
      findUnit cs = none →
      cs.any (fun c => c.isEmpty) = false →
      cs ≠ [] →
      branchLit cs = some l →
      (simplify cs ⟨l.id, false⟩ = none ∨
        ∃ lcs, simplify cs ⟨l.id, false⟩ = some lcs ∧
          dpllSolve lcs (insertA a l.id true) = .Unsatisfiable) →
      simplify cs ⟨l.id, true⟩ = some rcs →
      Reach cs0 a0 rcs (insertA a l.id false)

/-- The formula `x1 ∧ (¬x1 ∨ ¬x1 ∨ ¬x1)` built through the public
interface.  It is logically equivalent to `x1 ∧ ¬x1`. -/
def duplicateLiteralSolver : SatSolver :=
  ((SatSolver.new 1).add_clause [⟨1, false⟩]).add_clause
    [⟨1, true⟩, ⟨1, true⟩, ⟨1, true⟩]

/-- C1.  The solver answers `Satisfiable {1 ↦ false}` on
`x1 ∧ (¬x1 ∨ ¬x1 ∨ ¬x1)`: the clause `[x1]` of the original formula has no
literal whose variable is assigned a matching value, and indeed no total
assignment satisfies the formula, so the soundness claim fails on this
input (`simplify` strikes only the first copy of a duplicated negated
literal, and the false branch later overwrites the assignment of an
already-assigned branching variable). -/
theorem solve_unsound_on_duplicate_literals :
    duplicateLiteralSolver.solve = .Satisfiable [(1, false)] ∧
    (∃ c ∈ duplicateLiteralSolver.clauses, ¬ clauseSat [(1, false)] c) ∧
    (∀ σ : Nat → Bool, ¬ SatAll σ duplicateLiteralSolver.clauses) := by
  refine ⟨?_, ⟨[⟨1, false⟩], by decide, by decide⟩, ?_⟩
  · simp [duplicateLiteralSolver, SatSolver.new, SatSolver.add_clause, SatSolver.solve,
      dpllSolve, findUnit, simplify, strikeClauses, removeFirst, branchLit,
      conflictsWith, lookupA, insertA, Literal.not]
  · intro σ h
    have h1 := h [⟨1, false⟩] (by decide)
    have h2 := h [⟨1, true⟩, ⟨1, true⟩, ⟨1, true⟩] (by decide)
    simp at h1 h2
    rw [h1] at h2
    cases h2

/-- C2.  Completeness: whenever some total assignment satisfies every
stored clause, `solve` answers `Satisfiable`; equivalently `Unsatisfiable`
is only returned when no satisfying assignment exists. -/
theorem solve_complete (s : SatSolver)
    (h : ∃ σ : Nat → Bool, SatAll σ s.clauses) :
    ∃ a, s.solve = .Satisfiable a := by
  obtain ⟨σ, hσ⟩ := h
  exact dpll_complete s.clauses [] (fun k v hkv => Option.noConfusion hkv) hσ

/-- Witness for C2 at the one-clause formula `x1`. -/
theorem solve_complete_witness :
    (∃ σ : Nat → Bool, SatAll σ ((SatSolver.new 1).add_clause [⟨1, false⟩]).clauses) ∧
    (∃ a, ((SatSolver.new 1).add_clause [⟨1, false⟩]).solve = .Satisfiable a) :=
  ⟨⟨fun _ => true, by decide⟩, solve_complete _ ⟨fun _ => true, by decide⟩⟩

/-- C3.  Termination: the search is a total function (its well-founded
recursion on `fsize` is part of the definition), so on every finite formula
`solve` returns one of the two outcomes. -/
theorem solve_terminates (s : SatSolver) :
    (∃ a, s.solve = .Satisfiable a) ∨ s.solve = .Unsatisfiable := by
  cases h : s.solve with
  | Satisfiable a => exact Or.inl ⟨a, rfl⟩
  | Unsatisfiable => exact Or.inr rfl

/-- C4.  `simplify` removes only the *first* occurrence of `not(lit)` from
a clause: simplifying `[[¬x1, ¬x1]]` with `x1` leaves `[[¬x1]]`, which
still contains `not(lit)`, contradicting the strike-every-occurrence
claim. -/
theorem simplify_strikes_only_first_occurrence :
    simplify [[⟨1, true⟩, ⟨1, true⟩]] ⟨1, false⟩ = some [[⟨1, true⟩]] ∧
    Literal.not ⟨1, false⟩ ∈ ([⟨1, true⟩] : Clause) :=
  ⟨by decide, by decide⟩

/-- C5.  A reachable branching state whose branching variable is already
assigned: from the initial formula `[[¬x1, ¬x1, x2]]`, the true branch on
variable 1 leads to the state `([[¬x1, x2]], {1 ↦ true})`, which is at a
branching step (no unit clause, no empty clause, nonempty formula) and
whose branching variable — variable 1, from the first literal of the first
clause — already has a value in the assignment. -/
theorem reachable_branch_on_assigned_variable :
    Reach [[⟨1, true⟩, ⟨1, true⟩, ⟨2, false⟩]] []
      [[⟨1, true⟩, ⟨2, false⟩]] [(1, true)] ∧
    findUnit [[⟨1, true⟩, ⟨2, false⟩]] = none ∧
    ([[⟨1, true⟩, ⟨2, false⟩]] : List Clause).any (fun c => c.isEmpty) = false ∧
    ([[⟨1, true⟩, ⟨2, false⟩]] : List Clause) ≠ [] ∧
    branchLit [[⟨1, true⟩, ⟨2, false⟩]] = some ⟨1, true⟩ ∧
    lookupA [(1, true)] 1 = some true := by
  refine ⟨?_, by decide, by decide, by decide, by decide, by decide⟩
  exact @Reach.branchTrue [[⟨1, true⟩, ⟨1, true⟩, ⟨2, false⟩]] []
    [[⟨1, true⟩, ⟨1, true⟩, ⟨2, false⟩]] [] ⟨1, true⟩ [[⟨1, true⟩, ⟨2, false⟩]]
    (Reach.refl _ _) (by decide) (by decide) (by decide) (by decide) (by decide)

/-- C6 counterexample.  A literal can be absent from every clause while its
negation is present: simplifying `[[¬x1]]` with `x1` is then not a no-op —
it strikes `¬x1` and reports a conflict. -/
theorem simplify_noop_claim_counterexample :
    (⟨1, false⟩ : Literal) ∉ ([⟨1, true⟩] : Clause) ∧
    simplify [[⟨1, true⟩]] ⟨1, false⟩ = none :=
  ⟨by decide, by decide⟩

/-- C6 amended.  When neither `lit` nor `not(lit)` occurs in any clause,
`simplify` succeeds and returns the formula unchanged. -/
theorem simplify_noop_amended (cs : List Clause) (lit : Literal)
    (h : ∀ c ∈ cs, lit ∉ c ∧ Literal.not lit ∉ c) :
    simplify cs lit = some cs :=
  simplify_id h

/-- Witness for the amended C6. -/
theorem simplify_noop_amended_witness :
    (∀ c ∈ ([[⟨2, false⟩]] : List Clause),
      (⟨1, false⟩ : Literal) ∉ c ∧ Literal.not ⟨1, false⟩ ∉ c) ∧
    simplify [[⟨2, false⟩]] ⟨1, false⟩ = some [[⟨2, false⟩]] :=
  ⟨by decide, simplify_noop_amended _ _ (by decide)⟩

/-- C7.  A formula containing a directly-added empty clause is reported
`Unsatisfiable`. -/
theorem solve_direct_empty_clause_unsat (s : SatSolver) (h : [] ∈ s.clauses) :
    s.solve = .Unsatisfiable :=
  dpll_nil_unsat s.clauses [] h

/-- Witness for C7: `(x1 ∨ x2) ∧ ()`. -/
theorem solve_direct_empty_clause_unsat_witness :
    [] ∈ (((SatSolver.new 2).add_clause [⟨1, false⟩, ⟨2, false⟩]).add_clause []).clauses ∧
    (((SatSolver.new 2).add_clause [⟨1, false⟩, ⟨2, false⟩]).add_clause []).solve
      = .Unsatisfiable :=
  ⟨by decide, solve_direct_empty_clause_unsat _ (by decide)⟩

/-- C8.  Determinism: `solve` is a pure function of the stored clause list,
so two solvers holding the same clauses in the same order — regardless of
their advisory `num_vars` — return identical results, identical satisfying
assignment included. -/
theorem solve_deterministic (s1 s2 : SatSolver) (h : s1.clauses = s2.clauses) :
    s1.solve = s2.solve := by
  unfold SatSolver.solve
  rw [h]

/-- Witness for C8: the same clause inserted into two fresh solvers. -/
theorem solve_deterministic_witness :
    ((SatSolver.new 2).add_clause [⟨1, false⟩, ⟨2, false⟩]).clauses
      = ((SatSolver.new 7).add_clause [⟨1, false⟩, ⟨2, false⟩]).clauses ∧
    ((SatSolver.new 2).add_clause [⟨1, false⟩, ⟨2, false⟩]).solve
      = ((SatSolver.new 7).add_clause [⟨1, false⟩, ⟨2, false⟩]).solve :=
  ⟨rfl, solve_deterministic _ _ rfl⟩

/-- Scenario A of the spec, built through the public interface exactly as
in the `test_simple_sat` test: `(x1 ∨ x2) ∧ (¬x1 ∨ x2)`. -/
def scenarioASolver : SatSolver :=
  ((SatSolver.new 2).add_clause [⟨1, false⟩, ⟨2, false⟩]).add_clause
    [⟨1, true⟩, ⟨2, false⟩]

/-- C9.  Scenario A returns `Satisfiable` with variable 2 assigned true. -/
theorem solve_scenarioA :
    ∃ a, scenarioASolver.solve = .Satisfiable a ∧ lookupA a 2 = some true := by
  refine ⟨[(1, true), (2, true)], ?_, by decide⟩
  simp [scenarioASolver, SatSolver.new, SatSolver.add_clause, SatSolver.solve, dpllSolve,
    findUnit, simplify, strikeClauses, removeFirst, branchLit, conflictsWith, lookupA,
    insertA, Literal.not]

/-- C10.  At a branching step — no unit clause, no empty clause, nonempty
formula — the total embedding of the access `clauses[0][0]` yields a value,
so the out-of-bounds fallback of `dpllSolve` is unreachable. -/
theorem branch_access_safe (cs : List Clause)
    (hu : findUnit cs = none)
    (hemp : cs.any (fun c => c.isEmpty) = false)
    (hne : cs ≠ []) :
    (branchLit cs).isSome :=
  branchLit_isSome_of_checks hne hemp

/-- Witness for C10. -/
theorem branch_access_safe_witness :
    findUnit [[⟨1, false⟩, ⟨2, false⟩]] = none ∧
    ([[⟨1, false⟩, ⟨2, false⟩]] : List Clause).any (fun c => c.isEmpty) = false ∧
    ([[⟨1, false⟩, ⟨2, false⟩]] : List Clause) ≠ [] ∧
    (branchLit [[⟨1, false⟩, ⟨2, false⟩]]).isSome :=
  ⟨by decide, by decide, by decide,
    branch_access_safe _ (by decide) (by decide) (by decide)⟩

end ConstraintSolver
